import Mathlib

/-!
Verification development for the `mongo-queue` module: a persistent work
queue over a document store.  Producers enqueue records; a background
engine claims batches of pending records, retries failures up to a
configured limit, escalates exhausted records to a permanent-failure
state, and sweeps stale records.

The queue-engine core (`index.js`) is not present in the source tree; the
engine's data model and operations below are modelled from the
specification (each such definition's doc comment says so).  The database
connection module `src/lib/db.js` is present and is embedded directly.
-/

namespace MongoQueue

/-- Modelled from the spec: the record status field; `index.js` is missing.
One of `pending`, `processing`, `done`, `failed_permanent` (spec §3). -/
inductive Status where
  | pending
  | processing
  | done
  | failed_permanent
deriving DecidableEq, Repr

/-- Modelled from the spec: the unit of work stored in the collection
(spec §3); `index.js` is missing.  Timestamps are integer milliseconds. -/
structure Record where
  id : Nat
  data : Nat
  status : Status
  attempts : Nat
  createdAt : Int
  updatedAt : Int
deriving DecidableEq, Repr

/-- The backing collection, in insertion order. -/
abbrev Collection := List Record

namespace RetryAccountant

/-- Outcome of the retry decision. -/
inductive Decision where
  | retry
  | terminal
deriving DecidableEq, Repr

/-- Modelled from the spec: RetryAccountant's pure decision function
(spec §4.2); `index.js` is missing.  `retry` while
`attempts <= retryLimit`; `terminal` once `attempts > retryLimit`.
Purity/statelessness holds by construction: this is a plain function of
its two arguments. -/
def decide (attempts retryLimit : Nat) : Decision :=
  if attempts ≤ retryLimit then .retry else .terminal

end RetryAccountant

namespace RecordStore

/-- Modelled from the spec: `enqueue(data)` inserts a new record with
`status=pending`, `attempts=0`, `createdAt=now` (spec §4.1); `index.js`
is missing.  The identifier is assigned at creation. -/
def enqueue (col : Collection) (d : Nat) (newId : Nat) (now : Int) : Collection :=
  col ++ [{ id := newId, data := d, status := .pending, attempts := 0,
            createdAt := now, updatedAt := now }]

/-- Modelled from the spec: the `pending → processing` claim transition of
one record, incrementing `attempts` and stamping `updatedAt` (spec §4.3);
`index.js` is missing. -/
def claimRecord (now : Int) (r : Record) : Record :=
  { r with status := .processing, attempts := r.attempts + 1, updatedAt := now }

/-- Ordering of records by `createdAt` ascending (oldest first). -/
def byCreatedAt (a b : Record) : Prop :=
  a.createdAt ≤ b.createdAt

instance : DecidableRel byCreatedAt := fun a b =>
  inferInstanceAs (Decidable (a.createdAt ≤ b.createdAt))

instance : IsTotal Record byCreatedAt :=
  ⟨fun a b => Int.le_total a.createdAt b.createdAt⟩

instance : IsTrans Record byCreatedAt :=
  ⟨fun _ _ _ hab hbc => le_trans hab hbc⟩

/-- The pending records of the collection, ordered by `createdAt`
ascending (oldest first, FIFO fairness). -/
def pendingByAge (col : Collection) : List Record :=
  (col.filter (fun r => r.status == .pending)).insertionSort byCreatedAt

/-- The records selected by a claim of size `limit`: the up-to-`limit`
oldest pending records. -/
def chosenFor (col : Collection) (limit : Nat) : List Record :=
  (pendingByAge col).take limit

/-- The per-record conditional update performed by `claimBatch`: the
claim transition fires only on a record whose id was selected and whose
status is still `pending` at update time. -/
def claimUpdater (ids : List Nat) (now : Int) (r : Record) : Record :=
  if ids.contains r.id && r.status == .pending then claimRecord now r else r

/-- Modelled from the spec: `claimBatch(limit)` selects up to `limit`
records with `status=pending`, ordered by `createdAt` ascending, and
transitions each selected record to `status=processing`, incrementing
`attempts` (spec §4.1); `index.js` is missing.  Each transition is a
conditional update keyed on the record id and `status=pending`.  Returns
the claimed records (post-transition) and the updated collection. -/
def claimBatch (col : Collection) (limit : Nat) (now : Int) :
    List Record × Collection :=
  ((chosenFor col limit).map (claimRecord now),
   col.map (claimUpdater ((chosenFor col limit).map (·.id)) now))

/-- Modelled from the spec: the three outcomes of `markOutcome`
(spec §4.1); `index.js` is missing. -/
inductive Outcome where
  | success
  | retry
  | terminalFailure
deriving DecidableEq, Repr

/-- Modelled from the spec: the status written by each outcome, stamping
`updatedAt` (spec §4.1); `index.js` is missing. -/
def applyOutcome (o : Outcome) (now : Int) (r : Record) : Record :=
  match o with
  | .success => { r with status := .done, updatedAt := now }
  | .retry => { r with status := .pending, updatedAt := now }
  | .terminalFailure => { r with status := .failed_permanent, updatedAt := now }

/-- The per-record conditional update performed by `markOutcome`: the
outcome is applied only to the record with the given id whose status is
still `processing`. -/
def moUpdater (rid : Nat) (o : Outcome) (now : Int) (r : Record) : Record :=
  if r.id == rid && r.status == .processing then applyOutcome o now r else r

/-- Modelled from the spec: `markOutcome(id, outcome)` as a conditional
update on the expected `processing` status (spec §4.1, §5:
"conditional-update-on-expected-status pattern used by `claimBatch` and
`markOutcome`"); `index.js` is missing. -/
def markOutcome (col : Collection) (rid : Nat) (o : Outcome) (now : Int) : Collection :=
  col.map (moUpdater rid o now)

/-- Staleness predicate: `createdAt < now - maxAge` (spec §4.1). -/
def isStale (maxAge now : Int) (r : Record) : Bool :=
  r.createdAt < now - maxAge

/-- Modelled from the spec: `deleteStale(maxAge)` deletes all records with
`createdAt < now - maxAge`, regardless of status, and returns the number
removed together with the surviving collection (spec §4.1); `index.js`
is missing. -/
def deleteStale (col : Collection) (maxAge : Int) (now : Int) : Nat × Collection :=
  ((col.filter (isStale maxAge now)).length,
   col.filter (fun r => !isStale maxAge now r))

end RecordStore

open RecordStore

/-- Modelled from the spec: engine configuration (spec §6); `index.js` is
missing.  `onProcess` returns success (`Except.ok`) or failure — an
explicit failure signal or a rejection/exception, both carried as
`Except.error` and treated identically (spec §9, design note). -/
structure Config where
  batchSize : Nat
  retryLimit : Nat
  maxRecordAge : Int
  onProcess : Record → Except String Unit
  onFailure : Record → Except String Unit

/-- Modelled from the spec: the per-instance engine state — the shared
collection plus the two process-local single-flight run-flags (spec §5);
`index.js` is missing. -/
structure Engine where
  col : Collection
  batchRunning : Bool
  cleanupRunning : Bool

/-- Aggregate result of one `processNextBatch` invocation: either skipped
(batch already in flight) or counts of done/retried/terminal outcomes. -/
structure BatchResult where
  skipped : Bool
  doneCount : Nat
  retriedCount : Nat
  terminalCount : Nat
deriving DecidableEq, Repr

namespace BatchProcessor

/-- Classification of the user callback's resolution: `true` on success,
`false` on explicit failure or rejection (both unified, spec §9). -/
def processSuccess (onProcess : Record → Except String Unit) (r : Record) : Bool :=
  match onProcess r with
  | .ok _ => true
  | .error _ => false

/-- Modelled from the spec: outcome routing for one claimed record —
success maps to `done`; failure consults `RetryAccountant.decide` on the
record's (already incremented) attempt count (spec §4.3); `index.js` is
missing. -/
def outcomeFor (retryLimit : Nat) (success : Bool) (r : Record) : Outcome :=
  if success then .success
  else
    match RetryAccountant.decide r.attempts retryLimit with
    | .retry => .retry
    | .terminal => .terminalFailure

/-- Add one outcome to the aggregate counts. -/
def tally (res : BatchResult) : Outcome → BatchResult
  | .success => { res with doneCount := res.doneCount + 1 }
  | .retry => { res with retriedCount := res.retriedCount + 1 }
  | .terminalFailure => { res with terminalCount := res.terminalCount + 1 }

/-- The outcome the batch run assigns to one claimed record: invoke the
callback, classify its resolution, and route failures through
`RetryAccountant.decide`. -/
def oOf (cfg : Config) (r : Record) : Outcome :=
  outcomeFor cfg.retryLimit (processSuccess cfg.onProcess r) r

/-- Modelled from the spec: processing of a single claimed record — invoke
the callback, classify, consult RetryAccountant on failure, persist via
`markOutcome`, count the outcome (spec §4.3); `index.js` is missing. -/
def stepRecord (cfg : Config) (now : Int) (st : Collection × BatchResult)
    (r : Record) : Collection × BatchResult :=
  (markOutcome st.1 r.id (oOf cfg r) now, tally st.2 (oOf cfg r))

/-- Modelled from the spec: one batch run — claim up to `batchSize`
records, then process them serially in claimed order, each record's
outcome applied independently (spec §4.3); `index.js` is missing. -/
def runBatch (cfg : Config) (col : Collection) (now : Int) :
    Collection × BatchResult :=
  let claimed := (claimBatch col cfg.batchSize now).1
  let col1 := (claimBatch col cfg.batchSize now).2
  claimed.foldl (stepRecord cfg now)
    (col1, { skipped := false, doneCount := 0, retriedCount := 0, terminalCount := 0 })

end BatchProcessor

namespace CleanupSweeper

/-- Modelled from the spec: `run(maxAge)` is a pure pass-through to
`RecordStore.deleteStale` (spec §4.4); `index.js` is missing. -/
def run (col : Collection) (maxAge : Int) (now : Int) : Nat × Collection :=
  deleteStale col maxAge now

end CleanupSweeper

namespace QueueEngine

open BatchProcessor

/-- Modelled from the spec: `processNextBatch()` — if a batch is already
running on this instance, return a skipped result and perform no work;
otherwise run one batch (spec §4.5, §5); `index.js` is missing. -/
def processNextBatch (cfg : Config) (e : Engine) (now : Int) :
    Engine × BatchResult :=
  if e.batchRunning then
    (e, { skipped := true, doneCount := 0, retriedCount := 0, terminalCount := 0 })
  else
    let res := runBatch cfg e.col now
    ({ e with col := res.1 }, res.2)

/-- Modelled from the spec: `cleanup()` — same skip-if-already-running
discipline, delegating to CleanupSweeper (spec §4.5); `index.js` is
missing.  Returns the engine and an optional removed-count (`none` when
skipped). -/
def cleanup (cfg : Config) (e : Engine) (now : Int) : Engine × Option Nat :=
  if e.cleanupRunning then
    (e, none)
  else
    let res := CleanupSweeper.run e.col cfg.maxRecordAge now
    ({ e with col := res.2 }, some res.1)

end QueueEngine

/-- Modelled from the spec: one public engine operation (spec §4.5): an
`enqueue` with a fresh id, a `processNextBatch` tick, or a `cleanup`
tick; `index.js` is missing. -/
inductive Step (cfg : Config) : Engine → Engine → Prop where
  | enqueue (e : Engine) (d newId : Nat) (now : Int)
      (hfresh : ∀ r ∈ e.col, r.id ≠ newId) :
      Step cfg e ⟨RecordStore.enqueue e.col d newId now, e.batchRunning, e.cleanupRunning⟩
  | processBatch (e : Engine) (now : Int) :
      Step cfg e (QueueEngine.processNextBatch cfg e now).1
  | cleanupTick (e : Engine) (now : Int) :
      Step cfg e (QueueEngine.cleanup cfg e now).1

/-- The record-level invariant of spec §3: collection ids are unique, a
`pending` record has at most `retryLimit` attempts (it is still
claimable), and a `processing` record has at most `retryLimit + 1`
attempts. -/
def InvCol (cfg : Config) (col : Collection) : Prop :=
  (col.map (fun r => r.id)).Nodup ∧
  ∀ r ∈ col, (r.status = .pending → r.attempts ≤ cfg.retryLimit) ∧
    (r.status = .processing → r.attempts ≤ cfg.retryLimit + 1)

namespace ClaimRace

/-- Modelled from the spec: one atomic claim attempt by one engine
instance on one record — "a conditional update keyed on `status=pending`
at read time" (spec §4.1); `index.js` is missing.  The attempt succeeds
exactly when a record with the id is still pending, in which case that
record transitions to `processing`. -/
def tryClaim (col : Collection) (rid : Nat) (now : Int) : Bool × Collection :=
  if col.any (fun r => r.id == rid && r.status == .pending) then
    (true, col.map (RecordStore.claimUpdater [rid] now))
  else
    (false, col)

/-- The two racing engine instances of spec §8's exclusivity property. -/
inductive Claimant where
  | A
  | B
deriving DecidableEq, Repr

/-- Outcome of an interleaved run: the final collection and the ids each
instance successfully claimed. -/
structure RaceResult where
  col : Collection
  claimedA : List Nat
  claimedB : List Nat
deriving DecidableEq, Repr

/-- Modelled from the spec: an arbitrary interleaving of two concurrent
`claimBatch` calls over the same collection — each schedule entry is one
claimant's atomic conditional claim of one record id (spec §4.1, §8);
`index.js` is missing. -/
def race (sched : List (Claimant × Nat)) (now : Int) (col : Collection) :
    RaceResult :=
  match sched with
  | [] => ⟨col, [], []⟩
  | (who, rid) :: rest =>
    let step := tryClaim col rid now
    let res := race rest now step.2
    match who with
    | .A => ⟨res.col, if step.1 then rid :: res.claimedA else res.claimedA,
             res.claimedB⟩
    | .B => ⟨res.col, res.claimedA,
             if step.1 then rid :: res.claimedB else res.claimedB⟩

end ClaimRace

namespace Db

/-!
Shallow embedding of `src/lib/db.js`.  The module exports a factory
`function(mongoUrl)` that immediately evaluates
`var dbPromise = MongoClient.connect(mongoUrl)` (line 8) and returns an
object whose `getCollection(collectionName)` resolves the stored
`dbPromise` through Bluebird's `Promise.resolve(...).then(...)`
(lines 17–22).  Connection-opening is the one side effect; it is tracked
as a counter threaded through `StateM Nat`.
-/

/-- A connected database handle, identified by the URL it was opened
with. -/
structure Database where
  url : String
deriving DecidableEq, Repr

/-- A collection handle: a database plus a collection name
(`db.collection(collectionName)`, line 20 of `db.js`). -/
structure Coll where
  db : Database
  name : String
deriving DecidableEq, Repr

/-- Which promise library a promise value belongs to: the mongodb
driver's native promises, or Bluebird. -/
inductive PromiseKind where
  | native
  | bluebird
deriving DecidableEq, Repr

/-- A settled promise: its library of origin and its resolution value. -/
structure Promise (α : Type) where
  kind : PromiseKind
  value : α
deriving DecidableEq, Repr

/-- `MongoClient.connect(mongoUrl)` (line 8 of `db.js`): opens a
connection — counted as one side effect — and yields a native driver
promise for the database handle. -/
def connect (mongoUrl : String) : StateM Nat (Promise Database) :=
  fun n => (⟨.native, ⟨mongoUrl⟩⟩, n + 1)

/-- Bluebird's `Promise.resolve(p)` (line 18 of `db.js`): adopts any
promise into a Bluebird promise with the same resolution value. -/
def promiseResolve (p : Promise α) : Promise α :=
  ⟨.bluebird, p.value⟩

/-- `.then(f)` on a promise (lines 18–21 of `db.js`): maps the resolution
value, staying in the same promise library. -/
def promiseThen (p : Promise α) (f : α → β) : Promise β :=
  ⟨p.kind, f p.value⟩

/-- `db.collection(collectionName)` (line 20 of `db.js`). -/
def Database.collection (db : Database) (name : String) : Coll :=
  ⟨db, name⟩

/-- The object returned by the factory: it closes over the single
`dbPromise` created at factory-call time (lines 8–12 of `db.js`). -/
structure DbModule where
  dbPromise : Promise Database

/-- The exported factory `module.exports = function(mongoUrl) {...}`
(lines 6–13 of `db.js`): calls `MongoClient.connect` once, stores the
resulting promise, and returns the `getCollection` closure over it. -/
def dbFactory (mongoUrl : String) : StateM Nat DbModule :=
  fun n =>
    let step := connect mongoUrl n
    (⟨step.1⟩, step.2)

/-- `getCollection(collectionName)` (lines 17–22 of `db.js`): resolves
the stored `dbPromise` via Bluebird and maps it to the named collection.
No connection is opened (the state is untouched). -/
def getCollection (m : DbModule) (collectionName : String) :
    StateM Nat (Promise Coll) :=
  fun n =>
    (promiseThen (promiseResolve m.dbPromise)
      (fun db => db.collection collectionName), n)

end Db

section Lemmas

open RecordStore BatchProcessor

lemma claimRecord_id (now : Int) (r : Record) : (claimRecord now r).id = r.id := rfl

lemma claimRecord_createdAt (now : Int) (r : Record) :
    (claimRecord now r).createdAt = r.createdAt := rfl

lemma applyOutcome_id (o : Outcome) (now : Int) (r : Record) :
    (applyOutcome o now r).id = r.id := by
  cases o <;> rfl

lemma applyOutcome_attempts (o : Outcome) (now : Int) (r : Record) :
    (applyOutcome o now r).attempts = r.attempts := by
  cases o <;> rfl

lemma moUpdater_id (rid : Nat) (o : Outcome) (now : Int) (r : Record) :
    (moUpdater rid o now r).id = r.id := by
  unfold moUpdater
  split
  · exact applyOutcome_id o now r
  · rfl

lemma moUpdater_attempts (rid : Nat) (o : Outcome) (now : Int) (r : Record) :
    (moUpdater rid o now r).attempts = r.attempts := by
  unfold moUpdater
  split
  · exact applyOutcome_attempts o now r
  · rfl

lemma moUpdater_of_ne {rid : Nat} (o : Outcome) (now : Int) {r : Record}
    (h : r.id ≠ rid) : moUpdater rid o now r = r := by
  simp [moUpdater, h]

lemma moUpdater_not_processing (rid : Nat) (o : Outcome) (now : Int) {r : Record}
    (h : r.status ≠ .processing) : moUpdater rid o now r = r := by
  simp [moUpdater, h]

lemma moUpdater_of_match {rid : Nat} (o : Outcome) (now : Int) {r : Record}
    (h1 : r.id = rid) (h2 : r.status = .processing) :
    moUpdater rid o now r = applyOutcome o now r := by
  simp [moUpdater, h1, h2]

lemma claimUpdater_id (ids : List Nat) (now : Int) (r : Record) :
    (claimUpdater ids now r).id = r.id := by
  unfold claimUpdater
  split <;> rfl

lemma claimUpdater_attempts_le (ids : List Nat) (now : Int) (r : Record) :
    r.attempts ≤ (claimUpdater ids now r).attempts := by
  unfold claimUpdater
  split
  · exact Nat.le_succ r.attempts
  · exact Nat.le_refl r.attempts

lemma claimUpdater_not_pending {ids : List Nat} (now : Int) {r : Record}
    (h : r.status ≠ .pending) : claimUpdater ids now r = r := by
  simp [claimUpdater, h]

lemma claimUpdater_of_match {ids : List Nat} (now : Int) {r : Record}
    (h1 : r.id ∈ ids) (h2 : r.status = .pending) :
    claimUpdater ids now r = claimRecord now r := by
  simp [claimUpdater, h1, h2]

lemma claimUpdater_of_notMem {ids : List Nat} (now : Int) {r : Record}
    (h : r.id ∉ ids) : claimUpdater ids now r = r := by
  simp [claimUpdater, h]

lemma map_id_of_preserve {f : Record → Record} (hf : ∀ r, (f r).id = r.id)
    (col : Collection) : (col.map f).map (fun r => r.id) = col.map (fun r => r.id) := by
  rw [List.map_map]
  exact List.map_congr_left fun r _ => hf r

lemma mem_pendingByAge {col : Collection} {r : Record} :
    r ∈ pendingByAge col ↔ r ∈ col ∧ r.status = .pending := by
  unfold pendingByAge
  rw [List.mem_insertionSort, List.mem_filter]
  simp

lemma chosenFor_mem {col : Collection} {limit : Nat} {c : Record}
    (h : c ∈ chosenFor col limit) : c ∈ col ∧ c.status = .pending :=
  mem_pendingByAge.mp (List.mem_of_mem_take h)

lemma chosenFor_length (col : Collection) (limit : Nat) :
    (chosenFor col limit).length ≤ limit :=
  List.length_take_le limit (pendingByAge col)

lemma pendingByAge_sorted (col : Collection) :
    (pendingByAge col).Pairwise byCreatedAt :=
  List.sorted_insertionSort byCreatedAt (col.filter (fun r => r.status == .pending))

lemma chosenFor_sorted (col : Collection) (limit : Nat) :
    (chosenFor col limit).Pairwise byCreatedAt :=
  List.Pairwise.sublist (List.take_sublist limit (pendingByAge col))
    (pendingByAge_sorted col)

lemma pendingByAge_ids_nodup {col : Collection}
    (hNod : (col.map (fun r => r.id)).Nodup) :
    ((pendingByAge col).map (fun r => r.id)).Nodup := by
  have hperm : List.Perm (pendingByAge col) (col.filter (fun r => r.status == .pending)) :=
    List.perm_insertionSort byCreatedAt _
  have hsub : (col.filter (fun r => r.status == .pending)).Sublist col :=
    List.filter_sublist col
  have hfil : ((col.filter (fun r => r.status == .pending)).map (fun r => r.id)).Nodup :=
    (hsub.map (fun r => r.id)).nodup hNod
  exact ((hperm.map (fun r => r.id)).nodup_iff).mpr hfil

lemma chosenFor_ids_nodup {col : Collection} (limit : Nat)
    (hNod : (col.map (fun r => r.id)).Nodup) :
    ((chosenFor col limit).map (fun r => r.id)).Nodup :=
  ((List.take_sublist limit (pendingByAge col)).map (fun r => r.id)).nodup
    (pendingByAge_ids_nodup hNod)

lemma claimBatch_claimed_ids (col : Collection) (limit : Nat) (now : Int) :
    (claimBatch col limit now).1.map (fun r => r.id) =
      (chosenFor col limit).map (fun r => r.id) := by
  show ((chosenFor col limit).map (claimRecord now)).map (fun r => r.id) =
    (chosenFor col limit).map (fun r => r.id)
  exact @map_id_of_preserve (claimRecord now) (fun _ => rfl) (chosenFor col limit)

lemma claimBatch_col_ids (col : Collection) (limit : Nat) (now : Int) :
    (claimBatch col limit now).2.map (fun r => r.id) = col.map (fun r => r.id) := by
  unfold claimBatch
  exact map_id_of_preserve (claimUpdater_id _ now) col

lemma claimBatch_claimed_src {col : Collection} {limit : Nat} {now : Int}
    {c : Record} (h : c ∈ (claimBatch col limit now).1) :
    ∃ p ∈ chosenFor col limit, p ∈ col ∧ p.status = .pending ∧
      c = claimRecord now p := by
  unfold claimBatch at h
  obtain ⟨p, hp, rfl⟩ := List.mem_map.mp h
  exact ⟨p, hp, (chosenFor_mem hp).1, (chosenFor_mem hp).2, rfl⟩

lemma claimBatch_claimed_mem_col1 {col : Collection} {limit : Nat} {now : Int}
    {c : Record} (h : c ∈ (claimBatch col limit now).1) :
    c ∈ (claimBatch col limit now).2 := by
  obtain ⟨p, hpchosen, hpcol, hppend, rfl⟩ := claimBatch_claimed_src h
  have hid : p.id ∈ (chosenFor col limit).map (fun r => r.id) :=
    List.mem_map_of_mem (fun r => r.id) hpchosen
  have : claimUpdater ((chosenFor col limit).map (fun r => r.id)) now p =
      claimRecord now p := claimUpdater_of_match now hid hppend
  unfold claimBatch
  exact this ▸ List.mem_map_of_mem _ hpcol

lemma claimBatch_claimed_ids_nodup {col : Collection} (limit : Nat) (now : Int)
    (hNod : (col.map (fun r => r.id)).Nodup) :
    ((claimBatch col limit now).1.map (fun r => r.id)).Nodup := by
  rw [claimBatch_claimed_ids]
  exact chosenFor_ids_nodup limit hNod

lemma claimBatch_agrees {col : Collection} {limit : Nat} {now : Int}
    (hNod : (col.map (fun r => r.id)).Nodup) :
    ∀ c ∈ (claimBatch col limit now).1, ∀ y ∈ (claimBatch col limit now).2,
      y.id = c.id → y = c := by
  intro c hc y hy hid
  obtain ⟨p, hpchosen, hpcol, hppend, rfl⟩ := claimBatch_claimed_src hc
  unfold claimBatch at hy
  obtain ⟨x, hxcol, rfl⟩ := List.mem_map.mp hy
  have hxid : x.id = p.id := by
    have := claimUpdater_id ((chosenFor col limit).map (fun r => r.id)) now x
    rw [this] at hid
    simpa using hid
  have hxp : x = p := List.inj_on_of_nodup_map hNod hxcol hpcol hxid
  subst hxp
  have hidmem : x.id ∈ (chosenFor col limit).map (fun r => r.id) :=
    List.mem_map_of_mem (fun r => r.id) hpchosen
  exact claimUpdater_of_match now hidmem hppend

end Lemmas

/-- C1: for every non-negative attempts count and retryLimit,
`RetryAccountant.decide` returns `retry` exactly when
`attempts ≤ retryLimit` and `terminal` exactly when
`attempts > retryLimit`.  (Purity is by construction: `decide` is a plain
Lean function with no state.) -/
theorem retryAccountant_decide_spec (attempts retryLimit : Nat) :
    (RetryAccountant.decide attempts retryLimit = .retry ↔ attempts ≤ retryLimit) ∧
    (RetryAccountant.decide attempts retryLimit = .terminal ↔ retryLimit < attempts) := by
  by_cases h : attempts ≤ retryLimit
  · simp [RetryAccountant.decide, h]
  · simp [RetryAccountant.decide, h]
    omega

/-- C3: `claimBatch(limit)` returns at most `limit` records; every
returned record is a pending record of the collection transitioned to
`processing` with its attempts incremented by one; the returned batch is
ordered by `createdAt` ascending and consists of oldest-first picks
(no unclaimed pending record is older than a claimed one); every
selected pending record is transitioned in the collection, and every
unselected pending record keeps its state (in particular stays
`pending`). -/
theorem claimBatch_spec (col : Collection) (limit : Nat) (now : Int) :
    (RecordStore.claimBatch col limit now).1.length ≤ limit ∧
    (∀ c ∈ (RecordStore.claimBatch col limit now).1,
        ∃ p ∈ col, p.status = .pending ∧ c = RecordStore.claimRecord now p ∧
          c.status = .processing ∧ c.attempts = p.attempts + 1) ∧
    (RecordStore.claimBatch col limit now).1.Pairwise
        (fun a b => a.createdAt ≤ b.createdAt) ∧
    (∀ c ∈ (RecordStore.claimBatch col limit now).1, ∀ p ∈ col,
        p.status = .pending →
        p.id ∉ (RecordStore.claimBatch col limit now).1.map (fun r => r.id) →
          c.createdAt ≤ p.createdAt) ∧
    (∀ p ∈ col, p.status = .pending →
        p.id ∈ (RecordStore.claimBatch col limit now).1.map (fun r => r.id) →
          RecordStore.claimRecord now p ∈ (RecordStore.claimBatch col limit now).2) ∧
    (∀ p ∈ col, p.status = .pending →
        p.id ∉ (RecordStore.claimBatch col limit now).1.map (fun r => r.id) →
          p ∈ (RecordStore.claimBatch col limit now).2) := by
  refine ⟨?_, ?_, ?_, ?_, ?_, ?_⟩
  · show ((chosenFor col limit).map (claimRecord now)).length ≤ limit
    rw [List.length_map]
    exact chosenFor_length col limit
  · intro c hc
    obtain ⟨p, _, hpcol, hppend, rfl⟩ := claimBatch_claimed_src hc
    exact ⟨p, hpcol, hppend, rfl, rfl, rfl⟩
  · show (((chosenFor col limit).map (claimRecord now)).Pairwise
      (fun a b => a.createdAt ≤ b.createdAt))
    rw [List.pairwise_map]
    exact chosenFor_sorted col limit
  · intro c hc p hpcol hppend hpnot
    obtain ⟨q, hqchosen, _, _, rfl⟩ := claimBatch_claimed_src hc
    rw [claimBatch_claimed_ids] at hpnot
    have hpPBA : p ∈ pendingByAge col := mem_pendingByAge.mpr ⟨hpcol, hppend⟩
    have hsplit := List.take_append_drop limit (pendingByAge col)
    have hsorted := pendingByAge_sorted col
    rw [← hsplit] at hsorted hpPBA
    have hpdrop : p ∈ (pendingByAge col).drop limit := by
      rcases List.mem_append.mp hpPBA with h | h
      · exact absurd (List.mem_map_of_mem (fun r => r.id) h) hpnot
      · exact h
    have := (List.pairwise_append.mp hsorted).2.2 q hqchosen p hpdrop
    exact this
  · intro p hpcol hppend hpin
    rw [claimBatch_claimed_ids] at hpin
    have : claimUpdater ((chosenFor col limit).map (fun r => r.id)) now p =
        claimRecord now p := claimUpdater_of_match now hpin hppend
    show claimRecord now p ∈
      col.map (claimUpdater ((chosenFor col limit).map (fun r => r.id)) now)
    exact this ▸ List.mem_map_of_mem _ hpcol
  · intro p hpcol _ hpnot
    rw [claimBatch_claimed_ids] at hpnot
    have : claimUpdater ((chosenFor col limit).map (fun r => r.id)) now p = p :=
      claimUpdater_of_notMem now hpnot
    show p ∈ col.map (claimUpdater ((chosenFor col limit).map (fun r => r.id)) now)
    exact this ▸ List.mem_map_of_mem _ hpcol

/-- Witness for C3 on a concrete collection: with `limit = 1` the
younger pending record is not selected and stays in the collection
unchanged. -/
theorem claimBatch_spec_witness :
    (⟨1, 0, .pending, 0, 5, 5⟩ : Record) ∈
      (RecordStore.claimBatch
        [⟨1, 0, .pending, 0, 5, 5⟩, ⟨2, 0, .pending, 0, 3, 3⟩, ⟨3, 0, .done, 0, 1, 1⟩]
        1 9).2 :=
  (claimBatch_spec
      [⟨1, 0, .pending, 0, 5, 5⟩, ⟨2, 0, .pending, 0, 3, 3⟩, ⟨3, 0, .done, 0, 1, 1⟩]
      1 9).2.2.2.2.2 ⟨1, 0, .pending, 0, 5, 5⟩ (by decide) (by decide) (by decide)

/-- C10: the factory in `src/lib/db.js` invokes `MongoClient.connect`
exactly once, at factory-call time (the connect counter advances by one
there); every subsequent `getCollection` call leaves the counter
untouched (never opening a new connection) and returns a Bluebird
promise for the named collection of that single shared connection. -/
theorem db_factory_single_connection (mongoUrl : String) (n₀ : Nat) :
    (Db.dbFactory mongoUrl n₀).2 = n₀ + 1 ∧
    (Db.dbFactory mongoUrl n₀).1.dbPromise.value = ⟨mongoUrl⟩ ∧
    ∀ (name : String) (n : Nat),
      (Db.getCollection (Db.dbFactory mongoUrl n₀).1 name n).2 = n ∧
      (Db.getCollection (Db.dbFactory mongoUrl n₀).1 name n).1 =
        ⟨.bluebird, Db.Database.collection ⟨mongoUrl⟩ name⟩ :=
  ⟨rfl, rfl, fun _ _ => ⟨rfl, rfl⟩⟩

/-- C6: `processNextBatch` invoked while a batch run is already in
flight on this instance (the run-flag is set) returns a skipped result
and performs no work — the engine state, and with it the status,
attempts and updatedAt of every record in the collection, is
unchanged. -/
theorem processNextBatch_skipped_when_running (cfg : Config) (e : Engine)
    (now : Int) (h : e.batchRunning = true) :
    (QueueEngine.processNextBatch cfg e now).1 = e ∧
    (QueueEngine.processNextBatch cfg e now).1.col = e.col ∧
    (QueueEngine.processNextBatch cfg e now).2 =
      { skipped := true, doneCount := 0, retriedCount := 0, terminalCount := 0 } := by
  refine ⟨?_, ?_, ?_⟩ <;> simp [QueueEngine.processNextBatch, h]

/-- C7: `deleteStale(maxAge)` deletes exactly the records with
`createdAt < now - maxAge` — every survivor is a record of the original
collection that is not stale (and is kept untouched), every non-stale
record survives whatever its status, every stale record is removed
whatever its status, and the returned count is the number of records
removed. -/
theorem deleteStale_exact (col : Collection) (maxAge now : Int) :
    (∀ r ∈ (RecordStore.deleteStale col maxAge now).2,
        r ∈ col ∧ ¬(r.createdAt < now - maxAge)) ∧
    (∀ r ∈ col, ¬(r.createdAt < now - maxAge) →
        r ∈ (RecordStore.deleteStale col maxAge now).2) ∧
    (∀ r ∈ col, r.createdAt < now - maxAge →
        r ∉ (RecordStore.deleteStale col maxAge now).2) ∧
    (RecordStore.deleteStale col maxAge now).1 +
        (RecordStore.deleteStale col maxAge now).2.length = col.length := by
  refine ⟨?_, ?_, ?_, ?_⟩
  · intro r hr
    simp only [RecordStore.deleteStale, RecordStore.isStale, List.mem_filter,
      Bool.not_eq_eq_eq_not, Bool.not_true, decide_eq_false_iff_not] at hr
    exact hr
  · intro r hr hyoung
    simp only [RecordStore.deleteStale, RecordStore.isStale, List.mem_filter,
      Bool.not_eq_eq_eq_not, Bool.not_true, decide_eq_false_iff_not]
    exact ⟨hr, hyoung⟩
  · intro r _ hstale hmem
    simp only [RecordStore.deleteStale, RecordStore.isStale, List.mem_filter,
      Bool.not_eq_eq_eq_not, Bool.not_true, decide_eq_false_iff_not] at hmem
    exact hmem.2 hstale
  · have hlen := @List.length_eq_length_filter_add Record col
      (fun r : Record => RecordStore.isStale maxAge now r)
    simpa [RecordStore.deleteStale, RecordStore.isStale] using hlen.symm

/-- Witness for C7 on a concrete two-record collection: the stale `done`
record is deleted and the younger `pending` record is kept. -/
theorem deleteStale_exact_witness :
    (⟨0, 1, .done, 0, 1, 1⟩ : Record) ∉
      (RecordStore.deleteStale [⟨0, 1, .done, 0, 1, 1⟩, ⟨1, 2, .pending, 0, 9, 9⟩] 3 10).2 ∧
    (⟨1, 2, .pending, 0, 9, 9⟩ : Record) ∈
      (RecordStore.deleteStale [⟨0, 1, .done, 0, 1, 1⟩, ⟨1, 2, .pending, 0, 9, 9⟩] 3 10).2 :=
  ⟨(deleteStale_exact [⟨0, 1, .done, 0, 1, 1⟩, ⟨1, 2, .pending, 0, 9, 9⟩] 3 10).2.2.1
      ⟨0, 1, .done, 0, 1, 1⟩ (by simp) (by decide),
   (deleteStale_exact [⟨0, 1, .done, 0, 1, 1⟩, ⟨1, 2, .pending, 0, 9, 9⟩] 3 10).2.1
      ⟨1, 2, .pending, 0, 9, 9⟩ (by simp) (by decide)⟩

/-- C8: cleanup is idempotent — if no surviving record has become stale
by the time of the second run, running the sweeper again removes 0
records and leaves the collection produced by the first run unchanged. -/
theorem cleanup_idempotent (col : Collection) (maxAge now nowNext : Int)
    (h : ∀ r ∈ (CleanupSweeper.run col maxAge now).2,
        RecordStore.isStale maxAge nowNext r = false) :
    CleanupSweeper.run (CleanupSweeper.run col maxAge now).2 maxAge nowNext =
      (0, (CleanupSweeper.run col maxAge now).2) := by
  unfold CleanupSweeper.run RecordStore.deleteStale
  refine Prod.ext ?_ ?_
  · simp only [List.length_eq_zero, List.filter_eq_nil_iff]
    intro r hr
    simp [h r hr]
  · simp only
    rw [List.filter_eq_self.mpr]
    intro r hr
    simp [h r hr]

/-- Witness for C8: a second same-instant sweep of a concrete collection
removes nothing and changes nothing. -/
theorem cleanup_idempotent_witness :
    CleanupSweeper.run
        (CleanupSweeper.run [⟨0, 1, .done, 0, 1, 1⟩, ⟨1, 2, .pending, 0, 9, 9⟩] 3 10).2 3 10 =
      (0, (CleanupSweeper.run [⟨0, 1, .done, 0, 1, 1⟩, ⟨1, 2, .pending, 0, 9, 9⟩] 3 10).2) :=
  cleanup_idempotent [⟨0, 1, .done, 0, 1, 1⟩, ⟨1, 2, .pending, 0, 9, 9⟩] 3 10 10
    (by decide)

/-- Witness for C6 at a concrete engine whose batch flag is set. -/
theorem processNextBatch_skipped_when_running_witness :
    (QueueEngine.processNextBatch
        ⟨2, 1, 10, fun _ => Except.ok (), fun _ => Except.ok ()⟩
        ⟨[⟨0, 7, .pending, 0, 3, 3⟩], true, false⟩ 9).1 =
      ⟨[⟨0, 7, .pending, 0, 3, 3⟩], true, false⟩ :=
  (processNextBatch_skipped_when_running
    ⟨2, 1, 10, fun _ => Except.ok (), fun _ => Except.ok ()⟩
    ⟨[⟨0, 7, .pending, 0, 3, 3⟩], true, false⟩ 9 rfl).1

section RaceLemmas

open RecordStore ClaimRace

lemma tryClaim_pending_dead (col : Collection) (rid : Nat) (now : Int) :
    ∀ r ∈ (tryClaim col rid now).2, r.id = rid → r.status ≠ .pending := by
  intro r hr hid
  unfold tryClaim at hr
  split at hr
  case isTrue h =>
    obtain ⟨x, hx, rfl⟩ := List.mem_map.mp hr
    rw [claimUpdater_id] at hid
    by_cases hp : x.status = .pending
    · have hmem : x.id ∈ [rid] := by simp [hid]
      rw [claimUpdater_of_match now hmem hp]
      intro hcontra
      exact Status.noConfusion hcontra
    · rw [claimUpdater_not_pending now hp]
      exact hp
  case isFalse h =>
    intro hp
    apply h
    rw [List.any_eq_true]
    exact ⟨r, hr, by simp [hid, hp]⟩

lemma tryClaim_preserves_dead {col : Collection} {i : Nat}
    (hd : ∀ r ∈ col, r.id = i → r.status ≠ .pending) (rid : Nat) (now : Int) :
    ∀ r ∈ (tryClaim col rid now).2, r.id = i → r.status ≠ .pending := by
  intro r hr hid
  unfold tryClaim at hr
  split at hr
  case isTrue h =>
    obtain ⟨x, hx, rfl⟩ := List.mem_map.mp hr
    rw [claimUpdater_id] at hid
    by_cases hfire : (List.contains [rid] x.id && x.status == .pending) = true
    · unfold claimUpdater
      rw [if_pos hfire]
      intro hcontra
      exact Status.noConfusion hcontra
    · unfold claimUpdater
      rw [if_neg hfire]
      exact hd x hx hid
  case isFalse h =>
    exact hd r hr hid

lemma race_dead_not_claimed {i : Nat} (now : Int) :
    ∀ (sched : List (Claimant × Nat)) (col : Collection),
      (∀ r ∈ col, r.id = i → r.status ≠ .pending) →
      i ∉ (race sched now col).claimedA ∧ i ∉ (race sched now col).claimedB := by
  intro sched
  induction sched with
  | nil =>
    intro col _
    simp [race]
  | cons head rest ih =>
    intro col hd
    obtain ⟨who, rid⟩ := head
    have hd' := tryClaim_preserves_dead hd rid now
    have ihres := ih _ hd'
    by_cases hrid : rid = i
    · have hfail : (tryClaim col rid now).1 = false := by
        unfold tryClaim
        split
        case isTrue h =>
          exfalso
          obtain ⟨r, hr, hpred⟩ := List.any_eq_true.mp h
          have h1 : r.id = rid := by
            have := (Bool.and_eq_true _ _).mp hpred
            simpa using this.1
          have h2 : r.status = .pending := by
            have := (Bool.and_eq_true _ _).mp hpred
            simpa using this.2
          exact hd r hr (hrid ▸ h1) h2
        case isFalse h => rfl
      cases who <;> simp only [race, hfail, Bool.false_eq_true, if_false] <;>
        exact ⟨ihres.1, ihres.2⟩
    · by_cases hstep : (tryClaim col rid now).1 = true
      · cases who
        · simp only [race, hstep, if_true, List.mem_cons, not_or]
          exact ⟨⟨fun hh => hrid hh.symm, ihres.1⟩, ihres.2⟩
        · simp only [race, hstep, if_true, List.mem_cons, not_or]
          exact ⟨ihres.1, fun hh => hrid hh.symm, ihres.2⟩
      · rw [Bool.not_eq_true] at hstep
        cases who <;> simp only [race, hstep, Bool.false_eq_true, if_false] <;>
          exact ⟨ihres.1, ihres.2⟩

end RaceLemmas

section FoldLemmas

open RecordStore BatchProcessor

lemma foldl_stepRecord_fst (cfg : Config) (now : Int) :
    ∀ (L : List Record) (c : Collection) (res : BatchResult),
      (L.foldl (stepRecord cfg now) (c, res)).1 =
        L.foldl (fun cc r => markOutcome cc r.id (oOf cfg r) now) c := by
  intro L
  induction L with
  | nil => intro c res; rfl
  | cons r L ih =>
    intro c res
    exact ih (markOutcome c r.id (oOf cfg r) now) (tally res (oOf cfg r))

lemma foldl_stepRecord_snd (cfg : Config) (now : Int) :
    ∀ (L : List Record) (c : Collection) (res : BatchResult),
      (L.foldl (stepRecord cfg now) (c, res)).2 =
        L.foldl (fun acc r => tally acc (oOf cfg r)) res := by
  intro L
  induction L with
  | nil => intro c res; rfl
  | cons r L ih =>
    intro c res
    exact ih (markOutcome c r.id (oOf cfg r) now) (tally res (oOf cfg r))

lemma tally_skipped (res : BatchResult) (o : Outcome) :
    (tally res o).skipped = res.skipped := by
  cases o <;> rfl

lemma tally_doneCount (res : BatchResult) (o : Outcome) :
    (tally res o).doneCount =
      res.doneCount + (if o == Outcome.success then 1 else 0) := by
  cases o <;> rfl

lemma tally_retriedCount (res : BatchResult) (o : Outcome) :
    (tally res o).retriedCount =
      res.retriedCount + (if o == Outcome.retry then 1 else 0) := by
  cases o <;> rfl

lemma tally_terminalCount (res : BatchResult) (o : Outcome) :
    (tally res o).terminalCount =
      res.terminalCount + (if o == Outcome.terminalFailure then 1 else 0) := by
  cases o <;> rfl

lemma tally_foldl_counts (cfg : Config) :
    ∀ (L : List Record) (res : BatchResult),
      (L.foldl (fun acc r => tally acc (oOf cfg r)) res).skipped = res.skipped ∧
      (L.foldl (fun acc r => tally acc (oOf cfg r)) res).doneCount =
        res.doneCount + L.countP (fun r => oOf cfg r == .success) ∧
      (L.foldl (fun acc r => tally acc (oOf cfg r)) res).retriedCount =
        res.retriedCount + L.countP (fun r => oOf cfg r == .retry) ∧
      (L.foldl (fun acc r => tally acc (oOf cfg r)) res).terminalCount =
        res.terminalCount + L.countP (fun r => oOf cfg r == .terminalFailure) := by
  intro L
  induction L with
  | nil => intro res; simp
  | cons r L ih =>
    intro res
    obtain ⟨h1, h2, h3, h4⟩ := ih (tally res (oOf cfg r))
    simp only [List.foldl_cons, List.countP_cons, h1, h2, h3, h4, tally_skipped,
      tally_doneCount, tally_retriedCount, tally_terminalCount]
    refine ⟨trivial, by omega, by omega, by omega⟩

lemma tally_foldl_sum (cfg : Config) :
    ∀ (L : List Record) (res : BatchResult),
      (L.foldl (fun acc r => tally acc (oOf cfg r)) res).doneCount +
        (L.foldl (fun acc r => tally acc (oOf cfg r)) res).retriedCount +
        (L.foldl (fun acc r => tally acc (oOf cfg r)) res).terminalCount =
      res.doneCount + res.retriedCount + res.terminalCount + L.length := by
  intro L
  induction L with
  | nil => intro res; simp
  | cons r L ih =>
    intro res
    have h := ih (tally res (oOf cfg r))
    simp only [List.foldl_cons, List.length_cons]
    rw [h]
    cases ho : oOf cfg r <;>
      simp [ho, tally_doneCount, tally_retriedCount, tally_terminalCount] <;> omega

lemma processAll_map_form (cfg : Config) (now : Int) :
    ∀ (L : List Record) (c : Collection),
      ∃ G : Record → Record,
        L.foldl (fun cc r => markOutcome cc r.id (oOf cfg r) now) c = c.map G ∧
        ∀ x, (G x).id = x.id ∧ (G x).attempts = x.attempts := by
  intro L
  induction L with
  | nil =>
    intro c
    exact ⟨id, (List.map_id c).symm, fun x => ⟨rfl, rfl⟩⟩
  | cons r L ih =>
    intro c
    obtain ⟨G, hG, hGprops⟩ := ih (c.map (moUpdater r.id (oOf cfg r) now))
    refine ⟨fun x => G (moUpdater r.id (oOf cfg r) now x), ?_, ?_⟩
    · show (L.foldl (fun cc rr => markOutcome cc rr.id (oOf cfg rr) now)
        (markOutcome c r.id (oOf cfg r) now)) = _
      rw [markOutcome, hG, List.map_map]
      rfl
    · intro x
      constructor
      · rw [(hGprops (moUpdater r.id (oOf cfg r) now x)).1, moUpdater_id]
      · rw [(hGprops (moUpdater r.id (oOf cfg r) now x)).2, moUpdater_attempts]

lemma processAll_untouched (cfg : Config) (now : Int) :
    ∀ (L : List Record) (c : Collection) (y : Record), y ∈ c →
      (∀ r ∈ L, r.id ≠ y.id) →
      y ∈ L.foldl (fun cc r => markOutcome cc r.id (oOf cfg r) now) c := by
  intro L
  induction L with
  | nil => intro c y hy _; exact hy
  | cons r L ih =>
    intro c y hy hne
    apply ih _ y _ (fun rr hrr => hne rr (List.mem_cons_of_mem r hrr))
    show y ∈ markOutcome c r.id (oOf cfg r) now
    have := moUpdater_of_ne (r := y) (oOf cfg r) now
      (fun h => hne r (List.mem_cons_self r L) h.symm)
    exact this ▸ List.mem_map_of_mem _ hy

lemma processAll_keeps_nonprocessing (cfg : Config) (now : Int) :
    ∀ (L : List Record) (c : Collection) (y : Record), y ∈ c →
      y.status ≠ .processing →
      y ∈ L.foldl (fun cc r => markOutcome cc r.id (oOf cfg r) now) c := by
  intro L
  induction L with
  | nil => intro c y hy _; exact hy
  | cons r L ih =>
    intro c y hy hys
    apply ih _ y _ hys
    show y ∈ markOutcome c r.id (oOf cfg r) now
    have := moUpdater_not_processing r.id (oOf cfg r) now hys
    exact this ▸ List.mem_map_of_mem _ hy

lemma processAll_final (cfg : Config) (now : Int) :
    ∀ (L : List Record) (c : Collection),
      (L.map (fun r => r.id)).Nodup →
      (∀ r ∈ L, ∀ y ∈ c, y.id = r.id → y = r) →
      (∀ r ∈ L, r ∈ c) →
      (∀ r ∈ L, r.status = .processing) →
      ∀ r ∈ L, applyOutcome (oOf cfg r) now r ∈
        L.foldl (fun cc rr => markOutcome cc rr.id (oOf cfg rr) now) c := by
  intro L
  induction L with
  | nil => intro c _ _ _ _ r hr; exact absurd hr (List.not_mem_nil r)
  | cons r0 L ih =>
    intro c hNod hag hin hproc r hr
    have hNodHead : r0.id ∉ L.map (fun r => r.id) := (List.nodup_cons.mp hNod).1
    have hNodTail : (L.map (fun r => r.id)).Nodup := (List.nodup_cons.mp hNod).2
    rcases List.mem_cons.mp hr with heq | hr
    · -- the head record gets its outcome applied, then is untouched
      subst heq
      have hmo : moUpdater r.id (oOf cfg r) now r = applyOutcome (oOf cfg r) now r :=
        moUpdater_of_match (oOf cfg r) now rfl (hproc r (List.mem_cons_self r L))
      have hmem : applyOutcome (oOf cfg r) now r ∈ markOutcome c r.id (oOf cfg r) now :=
        hmo ▸ List.mem_map_of_mem _ (hin r (List.mem_cons_self r L))
      simp only [List.foldl_cons]
      apply processAll_untouched cfg now L _ _ hmem
      intro rr hrr
      rw [applyOutcome_id]
      intro hcontra
      exact hNodHead (hcontra ▸ List.mem_map_of_mem (fun x => x.id) hrr)
    · -- records further down the list: re-establish the premises
      simp only [List.foldl_cons]
      apply ih (markOutcome c r0.id (oOf cfg r0) now) hNodTail ?hag ?hin ?hproc r hr
      case hag =>
        intro rr hrr y hy hid
        obtain ⟨x, hx, rfl⟩ := List.mem_map.mp hy
        rw [moUpdater_id] at hid
        have hxr : x = rr := hag rr (List.mem_cons_of_mem r0 hrr) x hx hid
        subst hxr
        apply moUpdater_of_ne
        intro hxid
        exact hNodHead (hxid ▸ List.mem_map_of_mem (fun t => t.id) hrr)
      case hin =>
        intro rr hrr
        have heq : moUpdater r0.id (oOf cfg r0) now rr = rr := by
          apply moUpdater_of_ne
          intro hxid
          exact hNodHead (hxid ▸ List.mem_map_of_mem (fun t => t.id) hrr)
        exact heq ▸ List.mem_map_of_mem _ (hin rr (List.mem_cons_of_mem r0 hrr))
      case hproc =>
        intro rr hrr
        exact hproc rr (List.mem_cons_of_mem r0 hrr)

lemma processAll_ids (cfg : Config) (now : Int) (L : List Record) (c : Collection) :
    (L.foldl (fun cc r => markOutcome cc r.id (oOf cfg r) now) c).map (fun r => r.id) =
      c.map (fun r => r.id) := by
  obtain ⟨G, hG, hp⟩ := processAll_map_form cfg now L c
  rw [hG]
  exact map_id_of_preserve (fun x => (hp x).1) c

lemma decide_retry_le {a rl : Nat} (h : RetryAccountant.decide a rl = .retry) :
    a ≤ rl := by
  by_cases hle : a ≤ rl
  · exact hle
  · exfalso
    unfold RetryAccountant.decide at h
    rw [if_neg hle] at h
    exact RetryAccountant.Decision.noConfusion h

lemma outcome_bound (cfg : Config) (now : Int) (x : Record) :
    ((applyOutcome (oOf cfg x) now x).status = .pending →
      (applyOutcome (oOf cfg x) now x).attempts ≤ cfg.retryLimit) ∧
    ((applyOutcome (oOf cfg x) now x).status = .processing →
      (applyOutcome (oOf cfg x) now x).attempts ≤ cfg.retryLimit + 1) := by
  unfold oOf outcomeFor
  cases hs : processSuccess cfg.onProcess x
  · cases hd : RetryAccountant.decide x.attempts cfg.retryLimit
    · constructor
      · intro _
        have ha : (applyOutcome Outcome.retry now x).attempts = x.attempts :=
          applyOutcome_attempts _ _ _
        simp only [Bool.false_eq_true, if_false, hd, ha]
        exact decide_retry_le hd
      · intro hcontra
        exfalso
        simp [applyOutcome] at hcontra
    · simp [applyOutcome]
  · simp [applyOutcome]

lemma processAll_bounds (cfg : Config) (now : Int) :
    ∀ (L : List Record) (c : Collection),
      (L.map (fun r => r.id)).Nodup →
      (∀ r ∈ L, ∀ y ∈ c, y.id = r.id → y = r) →
      (∀ y ∈ c, (y.status = .pending → y.attempts ≤ cfg.retryLimit) ∧
        (y.status = .processing → y.attempts ≤ cfg.retryLimit + 1)) →
      ∀ y ∈ L.foldl (fun cc r => markOutcome cc r.id (oOf cfg r) now) c,
        (y.status = .pending → y.attempts ≤ cfg.retryLimit) ∧
        (y.status = .processing → y.attempts ≤ cfg.retryLimit + 1) := by
  intro L
  induction L with
  | nil => intro c _ _ hc y hy; exact hc y hy
  | cons r0 L ih =>
    intro c hNod hag hc y hy
    have hNodHead := (List.nodup_cons.mp hNod).1
    have hNodTail := (List.nodup_cons.mp hNod).2
    simp only [List.foldl_cons] at hy
    refine ih (markOutcome c r0.id (oOf cfg r0) now) hNodTail ?_ ?_ y hy
    · intro rr hrr z hz hid
      obtain ⟨x, hx, rfl⟩ := List.mem_map.mp hz
      rw [moUpdater_id] at hid
      have hxr : x = rr := hag rr (List.mem_cons_of_mem r0 hrr) x hx hid
      subst hxr
      apply moUpdater_of_ne
      intro hxid
      apply hNodHead
      show r0.id ∈ List.map (fun r => r.id) L
      rw [← hxid]
      exact List.mem_map_of_mem (fun t => t.id) hrr
    · intro z hz
      obtain ⟨x, hx, rfl⟩ := List.mem_map.mp hz
      unfold moUpdater
      split
      case isTrue hcond =>
        have hxid : x.id = r0.id := by
          simpa using ((Bool.and_eq_true _ _).mp hcond).1
        have hxr0 : x = r0 := hag r0 (List.mem_cons_self r0 L) x hx hxid
        subst hxr0
        exact outcome_bound cfg now x
      case isFalse hcond =>
        exact hc x hx

lemma claimBatch_bounds (cfg : Config) {col : Collection} (limit : Nat) (now : Int)
    (hc : ∀ y ∈ col, (y.status = .pending → y.attempts ≤ cfg.retryLimit) ∧
      (y.status = .processing → y.attempts ≤ cfg.retryLimit + 1)) :
    ∀ y ∈ (claimBatch col limit now).2,
      (y.status = .pending → y.attempts ≤ cfg.retryLimit) ∧
      (y.status = .processing → y.attempts ≤ cfg.retryLimit + 1) := by
  intro y hy
  obtain ⟨x, hx, rfl⟩ := List.mem_map.mp hy
  unfold claimUpdater
  split
  case isTrue hcond =>
    have hxpend : x.status = .pending := by
      simpa using ((Bool.and_eq_true _ _).mp hcond).2
    constructor
    · intro hcontra
      exact absurd hcontra (by simp [claimRecord])
    · intro _
      show x.attempts + 1 ≤ cfg.retryLimit + 1
      exact Nat.succ_le_succ ((hc x hx).1 hxpend)
  case isFalse hcond =>
    exact hc x hx

lemma runBatch_fst (cfg : Config) (col : Collection) (now : Int) :
    (runBatch cfg col now).1 =
      (claimBatch col cfg.batchSize now).1.foldl
        (fun cc r => markOutcome cc r.id (oOf cfg r) now)
        (claimBatch col cfg.batchSize now).2 := by
  show ((claimBatch col cfg.batchSize now).1.foldl (stepRecord cfg now)
    ((claimBatch col cfg.batchSize now).2,
      { skipped := false, doneCount := 0, retriedCount := 0, terminalCount := 0 })).1 = _
  exact foldl_stepRecord_fst cfg now _ _ _

lemma runBatch_snd (cfg : Config) (col : Collection) (now : Int) :
    (runBatch cfg col now).2 =
      (claimBatch col cfg.batchSize now).1.foldl
        (fun acc r => tally acc (oOf cfg r))
        { skipped := false, doneCount := 0, retriedCount := 0, terminalCount := 0 } := by
  show ((claimBatch col cfg.batchSize now).1.foldl (stepRecord cfg now)
    ((claimBatch col cfg.batchSize now).2,
      { skipped := false, doneCount := 0, retriedCount := 0, terminalCount := 0 })).2 = _
  exact foldl_stepRecord_snd cfg now _ _ _

lemma step_inv {cfg : Config} {e eNext : Engine} (h : Step cfg e eNext)
    (hInv : InvCol cfg e.col) : InvCol cfg eNext.col := by
  obtain ⟨hNod, hB⟩ := hInv
  cases h with
  | enqueue d newId now hfresh =>
    constructor
    · show ((RecordStore.enqueue e.col d newId now).map (fun r => r.id)).Nodup
      unfold RecordStore.enqueue
      rw [List.map_append, List.nodup_append]
      refine ⟨hNod, List.nodup_singleton _, ?_⟩
      intro a ha hb
      obtain ⟨r, hr, rfl⟩ := List.mem_map.mp ha
      simp only [List.map_cons, List.map_nil, List.mem_singleton] at hb
      exact hfresh r hr hb
    · intro r hr
      rcases List.mem_append.mp hr with hcol | hnew
      · exact hB r hcol
      · rw [List.mem_singleton] at hnew
        subst hnew
        exact ⟨fun _ => Nat.zero_le _, fun hcontra => absurd hcontra (by simp)⟩
  | processBatch now =>
    by_cases hb : e.batchRunning
    · simpa [QueueEngine.processNextBatch, hb] using And.intro hNod hB
    · have hcol : (QueueEngine.processNextBatch cfg e now).1.col =
          (runBatch cfg e.col now).1 := by
        simp [QueueEngine.processNextBatch, hb]
      rw [hcol, runBatch_fst]
      constructor
      · rw [processAll_ids, claimBatch_col_ids]
        exact hNod
      · exact processAll_bounds cfg now _ _
          (claimBatch_claimed_ids_nodup cfg.batchSize now hNod)
          (claimBatch_agrees hNod)
          (claimBatch_bounds cfg cfg.batchSize now hB)
  | cleanupTick now =>
    by_cases hc : e.cleanupRunning
    · simpa [QueueEngine.cleanup, hc] using And.intro hNod hB
    · have hcol : (QueueEngine.cleanup cfg e now).1.col =
          e.col.filter (fun r => !isStale cfg.maxRecordAge now r) := by
        simp [QueueEngine.cleanup, hc, CleanupSweeper.run, deleteStale]
      rw [hcol]
      constructor
      · have hsub : (e.col.filter (fun r => !isStale cfg.maxRecordAge now r)).Sublist
            e.col := List.filter_sublist e.col
        exact (hsub.map (fun r => r.id)).nodup hNod
      · intro r hr
        exact hB r (List.mem_filter.mp hr).1

lemma step_monotone {cfg : Config} {e eNext : Engine} (h : Step cfg e eNext)
    (hInv : InvCol cfg e.col) :
    ∀ y ∈ e.col, ∀ z ∈ eNext.col, z.id = y.id → y.attempts ≤ z.attempts := by
  obtain ⟨hNod, _⟩ := hInv
  cases h with
  | enqueue d newId now hfresh =>
    intro y hy z hz hid
    rcases List.mem_append.mp hz with hzc | hzn
    · have hzy : z = y := List.inj_on_of_nodup_map hNod hzc hy hid
      rw [hzy]
    · rw [List.mem_singleton] at hzn
      subst hzn
      exact absurd (hid.symm.trans rfl) (hfresh y hy)
  | processBatch now =>
    intro y hy z hz hid
    by_cases hb : e.batchRunning
    · have hz' : z ∈ e.col := by
        simpa [QueueEngine.processNextBatch, hb] using hz
      have hzy : z = y := List.inj_on_of_nodup_map hNod hz' hy hid
      rw [hzy]
    · have hcol : (QueueEngine.processNextBatch cfg e now).1.col =
          (runBatch cfg e.col now).1 := by
        simp [QueueEngine.processNextBatch, hb]
      rw [hcol, runBatch_fst] at hz
      obtain ⟨G, hG, hp⟩ := processAll_map_form cfg now
        (claimBatch e.col cfg.batchSize now).1 (claimBatch e.col cfg.batchSize now).2
      rw [hG] at hz
      obtain ⟨x1, hx1, rfl⟩ := List.mem_map.mp hz
      obtain ⟨x, hx, rfl⟩ := List.mem_map.mp hx1
      have hxid : x.id = y.id := by
        rw [(hp _).1, claimUpdater_id] at hid
        exact hid
      have hxy : x = y := List.inj_on_of_nodup_map hNod hx hy hxid
      subst hxy
      rw [(hp _).2]
      exact claimUpdater_attempts_le _ now x
  | cleanupTick now =>
    intro y hy z hz hid
    by_cases hc : e.cleanupRunning
    · have hz' : z ∈ e.col := by
        simpa [QueueEngine.cleanup, hc] using hz
      have hzy : z = y := List.inj_on_of_nodup_map hNod hz' hy hid
      rw [hzy]
    · have hcol : (QueueEngine.cleanup cfg e now).1.col =
          e.col.filter (fun r => !isStale cfg.maxRecordAge now r) := by
        simp [QueueEngine.cleanup, hc, CleanupSweeper.run, deleteStale]
      rw [hcol] at hz
      have hz' : z ∈ e.col := (List.mem_filter.mp hz).1
      have hzy : z = y := List.inj_on_of_nodup_map hNod hz' hy hid
      rw [hzy]

lemma rtg_inv {cfg : Config} {e eNext : Engine}
    (h : Relation.ReflTransGen (Step cfg) e eNext) (hInv : InvCol cfg e.col) :
    InvCol cfg eNext.col := by
  induction h with
  | refl => exact hInv
  | tail _ hstep ih => exact step_inv hstep ih

lemma oOf_beq_success (cfg : Config) (r : Record) :
    (oOf cfg r == Outcome.success) = processSuccess cfg.onProcess r := by
  unfold oOf outcomeFor
  cases processSuccess cfg.onProcess r
  · cases RetryAccountant.decide r.attempts cfg.retryLimit <;> simp
  · simp

lemma oOf_beq_retry (cfg : Config) (r : Record) :
    (oOf cfg r == Outcome.retry) =
      (!processSuccess cfg.onProcess r &&
        (RetryAccountant.decide r.attempts cfg.retryLimit == .retry)) := by
  unfold oOf outcomeFor
  cases processSuccess cfg.onProcess r
  · cases RetryAccountant.decide r.attempts cfg.retryLimit <;> simp
  · simp

lemma oOf_beq_terminal (cfg : Config) (r : Record) :
    (oOf cfg r == Outcome.terminalFailure) =
      (!processSuccess cfg.onProcess r &&
        (RetryAccountant.decide r.attempts cfg.retryLimit == .terminal)) := by
  unfold oOf outcomeFor
  cases processSuccess cfg.onProcess r
  · cases RetryAccountant.decide r.attempts cfg.retryLimit <;> simp
  · simp

lemma claimed_processing {col : Collection} {limit : Nat} {now : Int} :
    ∀ r ∈ (claimBatch col limit now).1, r.status = .processing := by
  intro r hr
  obtain ⟨p, _, _, _, rfl⟩ := claimBatch_claimed_src hr
  rfl

end FoldLemmas

/-- C4: two concurrent `claimBatch` calls over the same collection —
modelled as an arbitrary interleaving of each instance's atomic
per-record conditional claims — never both obtain the same record: each
claim fires only on `status=pending` at read time, so the id sets the
two claimants obtain are disjoint. -/
theorem claim_race_exclusive (sched : List (ClaimRace.Claimant × Nat))
    (col : Collection) (now : Int) (i : Nat)
    (hA : i ∈ (ClaimRace.race sched now col).claimedA) :
    i ∉ (ClaimRace.race sched now col).claimedB := by
  induction sched generalizing col with
  | nil => simp [ClaimRace.race] at hA
  | cons head rest ih =>
    obtain ⟨who, rid⟩ := head
    cases who
    · by_cases hstep : (ClaimRace.tryClaim col rid now).1 = true
      · simp only [ClaimRace.race, hstep, if_true, List.mem_cons] at hA ⊢
        rcases hA with rfl | hA
        · exact (race_dead_not_claimed now rest _
            (tryClaim_pending_dead col i now)).2
        · exact ih _ hA
      · rw [Bool.not_eq_true] at hstep
        simp only [ClaimRace.race, hstep, Bool.false_eq_true, if_false] at hA ⊢
        exact ih _ hA
    · simp only [ClaimRace.race] at hA ⊢
      by_cases hstep : (ClaimRace.tryClaim col rid now).1 = true
      · simp only [hstep, if_true, List.mem_cons, not_or]
        refine ⟨?_, ih _ hA⟩
        rintro rfl
        exact absurd hA (race_dead_not_claimed now rest _
          (tryClaim_pending_dead col i now)).1
      · rw [Bool.not_eq_true] at hstep
        simp only [hstep, Bool.false_eq_true, if_false]
        exact ih _ hA

/-- C2: starting from a collection satisfying the record invariant, one
engine operation never decreases any surviving record's attempts count,
and along any sequence of engine operations every record that is not yet
in a terminal state (`done` or `failed_permanent`) has accumulated at
most `retryLimit + 1` attempts. -/
theorem attempts_monotone_and_bounded (cfg : Config) (e eNext : Engine)
    (hInv : InvCol cfg e.col) :
    (Step cfg e eNext →
      ∀ y ∈ e.col, ∀ z ∈ eNext.col, z.id = y.id → y.attempts ≤ z.attempts) ∧
    (Relation.ReflTransGen (Step cfg) e eNext →
      ∀ r ∈ eNext.col, r.status ≠ .done → r.status ≠ .failed_permanent →
        r.attempts ≤ cfg.retryLimit + 1) := by
  constructor
  · intro h
    exact step_monotone h hInv
  · intro h r hr hnd hnf
    obtain ⟨_, hB⟩ := rtg_inv h hInv
    cases hstatus : r.status
    · exact Nat.le_trans ((hB r hr).1 hstatus) (Nat.le_succ _)
    · exact (hB r hr).2 hstatus
    · exact absurd hstatus hnd
    · exact absurd hstatus hnf

/-- Witness for C2 at a concrete one-record engine: one processing tick
takes the record from 0 attempts (pending) to 1 attempt (done), a
non-decreasing change. -/
theorem attempts_monotone_and_bounded_witness :
    (⟨1, 0, Status.pending, 0, 1, 1⟩ : Record).attempts ≤
      (⟨1, 0, Status.done, 1, 1, 5⟩ : Record).attempts :=
  (attempts_monotone_and_bounded
      ⟨2, 1, 10, fun _ => Except.ok (), fun _ => Except.ok ()⟩
      ⟨[⟨1, 0, .pending, 0, 1, 1⟩], false, false⟩
      (QueueEngine.processNextBatch
        ⟨2, 1, 10, fun _ => Except.ok (), fun _ => Except.ok ()⟩
        ⟨[⟨1, 0, .pending, 0, 1, 1⟩], false, false⟩ 5).1
      ⟨by decide, by decide⟩).1
    (Step.processBatch _ 5)
    ⟨1, 0, .pending, 0, 1, 1⟩ (by decide) ⟨1, 0, .done, 1, 1, 5⟩ (by decide) rfl

/-- C5: a record in a terminal state (`done` or `failed_permanent`) is
absorbing — `claimBatch` keeps it unchanged in the collection and never
selects its id, `markOutcome` keeps it unchanged whatever outcome is
submitted for its id, and a full `processNextBatch` run keeps it
unchanged in the collection. -/
theorem terminal_absorbing (cfg : Config) (col : Collection) (y : Record)
    (hNod : (col.map (fun r => r.id)).Nodup)
    (hy : y ∈ col) (ht : y.status = .done ∨ y.status = .failed_permanent) :
    (∀ limit now, y ∈ (RecordStore.claimBatch col limit now).2 ∧
        y.id ∉ (RecordStore.claimBatch col limit now).1.map (fun r => r.id)) ∧
    (∀ rid o now, y ∈ RecordStore.markOutcome col rid o now) ∧
    (∀ (e : Engine), e.col = col → ∀ now,
        y ∈ (QueueEngine.processNextBatch cfg e now).1.col) := by
  have hpend : y.status ≠ .pending := by
    rcases ht with h | h <;> rw [h] <;> intro hc <;> exact Status.noConfusion hc
  have hproc : y.status ≠ .processing := by
    rcases ht with h | h <;> rw [h] <;> intro hc <;> exact Status.noConfusion hc
  have hmemClaim : ∀ limit now, y ∈ (RecordStore.claimBatch col limit now).2 := by
    intro limit now
    show y ∈ col.map (claimUpdater ((chosenFor col limit).map (fun r => r.id)) now)
    exact (claimUpdater_not_pending now hpend) ▸ List.mem_map_of_mem _ hy
  refine ⟨fun limit now => ⟨hmemClaim limit now, ?_⟩, ?_, ?_⟩
  · rw [claimBatch_claimed_ids]
    intro hmem
    obtain ⟨p, hp, hpid⟩ := List.mem_map.mp hmem
    have hpcol := chosenFor_mem hp
    have hpy : p = y := List.inj_on_of_nodup_map hNod hpcol.1 hy hpid
    exact hpend (hpy ▸ hpcol.2)
  · intro rid o now
    show y ∈ col.map (moUpdater rid o now)
    exact (moUpdater_not_processing rid o now hproc) ▸ List.mem_map_of_mem _ hy
  · intro e hecol now
    by_cases hb : e.batchRunning
    · simp only [QueueEngine.processNextBatch, hb, if_true]
      exact hecol ▸ hy
    · have hcol : (QueueEngine.processNextBatch cfg e now).1.col =
          (BatchProcessor.runBatch cfg e.col now).1 := by
        simp [QueueEngine.processNextBatch, hb]
      rw [hcol, runBatch_fst, hecol]
      exact processAll_keeps_nonprocessing cfg now _ _ y
        (hmemClaim cfg.batchSize now) hproc

/-- Witness for C5 at a concrete collection holding one `done` and one
`pending` record: the `done` record survives a claim unchanged. -/
theorem terminal_absorbing_witness :
    (⟨1, 0, .done, 1, 1, 2⟩ : Record) ∈
      (RecordStore.claimBatch [⟨1, 0, .done, 1, 1, 2⟩, ⟨2, 0, .pending, 0, 1, 1⟩]
        3 9).2 :=
  ((terminal_absorbing ⟨3, 1, 10, fun _ => Except.ok (), fun _ => Except.ok ()⟩
      [⟨1, 0, .done, 1, 1, 2⟩, ⟨2, 0, .pending, 0, 1, 1⟩]
      ⟨1, 0, .done, 1, 1, 2⟩ (by decide) (by decide) (Or.inl rfl)).1 3 9).1

/-- C9: a batch run never propagates a record's processing failure to
its caller — the run returns aggregate counts (done/retried/terminal)
that account for every claimed record, each claimed record's persisted
outcome depends only on its own callback result (done on success,
pending or failed_permanent on failure according to
`RetryAccountant.decide`), and all claimed records are processed even
when some fail. -/
theorem batch_failure_isolation (cfg : Config) (e : Engine) (now : Int)
    (hflag : e.batchRunning = false)
    (hNod : (e.col.map (fun r => r.id)).Nodup) :
    (QueueEngine.processNextBatch cfg e now).2.skipped = false ∧
    (QueueEngine.processNextBatch cfg e now).2.doneCount +
        (QueueEngine.processNextBatch cfg e now).2.retriedCount +
        (QueueEngine.processNextBatch cfg e now).2.terminalCount =
      (RecordStore.claimBatch e.col cfg.batchSize now).1.length ∧
    (QueueEngine.processNextBatch cfg e now).2.doneCount =
      (RecordStore.claimBatch e.col cfg.batchSize now).1.countP
        (fun r => BatchProcessor.processSuccess cfg.onProcess r) ∧
    (QueueEngine.processNextBatch cfg e now).2.retriedCount =
      (RecordStore.claimBatch e.col cfg.batchSize now).1.countP
        (fun r => !BatchProcessor.processSuccess cfg.onProcess r &&
          (RetryAccountant.decide r.attempts cfg.retryLimit == .retry)) ∧
    (QueueEngine.processNextBatch cfg e now).2.terminalCount =
      (RecordStore.claimBatch e.col cfg.batchSize now).1.countP
        (fun r => !BatchProcessor.processSuccess cfg.onProcess r &&
          (RetryAccountant.decide r.attempts cfg.retryLimit == .terminal)) ∧
    (∀ c ∈ (RecordStore.claimBatch e.col cfg.batchSize now).1,
      (BatchProcessor.processSuccess cfg.onProcess c = true →
        { c with status := .done, updatedAt := now } ∈
          (QueueEngine.processNextBatch cfg e now).1.col) ∧
      (BatchProcessor.processSuccess cfg.onProcess c = false →
        RetryAccountant.decide c.attempts cfg.retryLimit = .retry →
        { c with status := .pending, updatedAt := now } ∈
          (QueueEngine.processNextBatch cfg e now).1.col) ∧
      (BatchProcessor.processSuccess cfg.onProcess c = false →
        RetryAccountant.decide c.attempts cfg.retryLimit = .terminal →
        { c with status := .failed_permanent, updatedAt := now } ∈
          (QueueEngine.processNextBatch cfg e now).1.col)) := by
  have hres : (QueueEngine.processNextBatch cfg e now).2 =
      (BatchProcessor.runBatch cfg e.col now).2 := by
    simp [QueueEngine.processNextBatch, hflag]
  have hcol : (QueueEngine.processNextBatch cfg e now).1.col =
      (BatchProcessor.runBatch cfg e.col now).1 := by
    simp [QueueEngine.processNextBatch, hflag]
  have hsnd := runBatch_snd cfg e.col now
  obtain ⟨hsk, hdone, hretr, hterm⟩ := tally_foldl_counts cfg
    (RecordStore.claimBatch e.col cfg.batchSize now).1
    { skipped := false, doneCount := 0, retriedCount := 0, terminalCount := 0 }
  refine ⟨?_, ?_, ?_, ?_, ?_, ?_⟩
  · rw [hres, hsnd, hsk]
  · rw [hres, hsnd]
    have hsum := tally_foldl_sum cfg
      (RecordStore.claimBatch e.col cfg.batchSize now).1
      { skipped := false, doneCount := 0, retriedCount := 0, terminalCount := 0 }
    simpa using hsum
  · rw [hres, hsnd, hdone]
    simp only [Nat.zero_add]
    exact List.countP_congr (fun r _ => by rw [oOf_beq_success])
  · rw [hres, hsnd, hretr]
    simp only [Nat.zero_add]
    exact List.countP_congr (fun r _ => by rw [oOf_beq_retry])
  · rw [hres, hsnd, hterm]
    simp only [Nat.zero_add]
    exact List.countP_congr (fun r _ => by rw [oOf_beq_terminal])
  · intro c hc
    have hfin := processAll_final cfg now
      (RecordStore.claimBatch e.col cfg.batchSize now).1
      (RecordStore.claimBatch e.col cfg.batchSize now).2
      (claimBatch_claimed_ids_nodup cfg.batchSize now hNod)
      (claimBatch_agrees hNod)
      (fun r hr => claimBatch_claimed_mem_col1 hr)
      claimed_processing c hc
    rw [hcol, runBatch_fst]
    refine ⟨?_, ?_, ?_⟩
    · intro hs
      have heq : RecordStore.applyOutcome (BatchProcessor.oOf cfg c) now c =
          { c with status := .done, updatedAt := now } := by
        simp [BatchProcessor.oOf, BatchProcessor.outcomeFor, hs,
          RecordStore.applyOutcome]
      exact heq ▸ hfin
    · intro hs hd
      have heq : RecordStore.applyOutcome (BatchProcessor.oOf cfg c) now c =
          { c with status := .pending, updatedAt := now } := by
        simp [BatchProcessor.oOf, BatchProcessor.outcomeFor, hs, hd,
          RecordStore.applyOutcome]
      exact heq ▸ hfin
    · intro hs hd
      have heq : RecordStore.applyOutcome (BatchProcessor.oOf cfg c) now c =
          { c with status := .failed_permanent, updatedAt := now } := by
        simp [BatchProcessor.oOf, BatchProcessor.outcomeFor, hs, hd,
          RecordStore.applyOutcome]
      exact heq ▸ hfin

/-- Witness for C9: with a callback that fails exactly for the record
with id 1, a concrete two-record batch still persists the other record
as done. -/
theorem batch_failure_isolation_witness :
    (⟨2, 0, .done, 1, 2, 9⟩ : Record) ∈
      (QueueEngine.processNextBatch
        ⟨2, 0, 10, fun r => if r.id == 1 then Except.error "boom" else Except.ok (),
          fun _ => Except.ok ()⟩
        ⟨[⟨1, 0, .pending, 0, 1, 1⟩, ⟨2, 0, .pending, 0, 2, 2⟩], false, false⟩ 9).1.col :=
  ((batch_failure_isolation
      ⟨2, 0, 10, fun r => if r.id == 1 then Except.error "boom" else Except.ok (),
        fun _ => Except.ok ()⟩
      ⟨[⟨1, 0, .pending, 0, 1, 1⟩, ⟨2, 0, .pending, 0, 2, 2⟩], false, false⟩ 9
      rfl (by decide)).2.2.2.2.2
    ⟨2, 0, .processing, 1, 2, 9⟩ (by decide)).1 rfl

/-- Witness for C4: in a concrete two-step interleaving over one pending
record, instance A claims it and instance B cannot. -/
theorem claim_race_exclusive_witness :
    (1 : Nat) ∉ (ClaimRace.race [(.A, 1), (.B, 1)] 5
      [⟨1, 0, .pending, 0, 1, 1⟩]).claimedB :=
  claim_race_exclusive [(.A, 1), (.B, 1)] [⟨1, 0, .pending, 0, 1, 1⟩] 5 1
    (by decide)

end MongoQueue
